import Mathlib

/-!
A verification development for the NICE repository's K-Means clustering
engine (`cpp/include/kmeans.h`) and the CPU matrix operations collaborator
(`cpp/include/cpu_operations.h`).

Modelling conventions:
* A data matrix is a `List (List ℚ)`: the outer list is the list of columns
  (one column per sample, matching the source's column-major sample layout),
  each column a list of per-feature rational entries.  Exact rational
  arithmetic stands in for the C++ floating-point type `T`.
* `drand48` after `srand48(0)` is a fixed stream `ℕ → ℚ` of draws in `[0,1)`,
  indexed by a position that resets to `0` at every `Cluster` call (the
  source reseeds with the constant seed `0` when `Random` is false).
  `rand()` is a stream `ℕ → ℕ` whose position is *not* reset by `srand48`
  and persists across `Fit` calls, exactly as in the source, where
  `srand48` does not seed `rand`.
* The source compares Euclidean norms (`.norm()`); over exact arithmetic
  `Real.sqrt a < Real.sqrt b ↔ a < b` for nonnegative `a`, `b`, so the
  executable definitions compare squared norms, and the theorems about
  nearest-centroid selection are stated with the non-squared real distance
  `euclidDist`.
* A fatal error (`throw` / `exit(1)`) is modelled as an error value; the
  iteration loop of `Cluster` takes a fuel parameter, and a theorem about a
  completed run quantifies over the fuel.
-/

namespace Nice

/-- Componentwise difference of two columns (`a - b` on Eigen vectors). -/
def vsub (a b : List ℚ) : List ℚ := List.zipWith (fun x y => x - y) a b

/-- Componentwise sum of two columns (`a + b` on Eigen vectors). -/
def vadd (a b : List ℚ) : List ℚ := List.zipWith (fun x y => x + y) a b

/-- Squared Euclidean norm of a column (`v.squaredNorm()`). -/
def sqNorm (v : List ℚ) : ℚ := (v.map (fun x => x * x)).sum

/-- Squared Euclidean distance between two columns. -/
def sqDist (a b : List ℚ) : ℚ := sqNorm (vsub a b)

/-- Non-squared Euclidean distance, the quantity `(a - b).norm()` the source
compares; used in specification statements. -/
noncomputable def euclidDist (a b : List ℚ) : ℝ := Real.sqrt ((sqDist a b : ℚ) : ℝ)

/-- Normalized weight vector: `weights / weights.sum()` in
`SelectWeightedIndex` (kmeans.h line 172). -/
def normalizeW (weights : List ℚ) : List ℚ := weights.map (fun w => w / weights.sum)

/-- Index stored in `weights_index_map` for the value `v`: the map is filled
with `weights_index_map[normalizedWeights(i)] = i` for `i` ascending
(kmeans.h lines 174-177), so the *last* index holding `v` wins; an absent key
would read as the value-initialized `0`.  `i` is the index of the head of the
remaining list, `best` the last match so far. -/
def lastIdxAux (v : ℚ) : List ℚ → ℕ → ℕ → ℕ
  | [], _, best => best
  | x :: rest, i, best => lastIdxAux v rest (i + 1) (if x = v then i else best)

/-- Lookup `weights_index_map[v]`: the largest index of `l` holding `v`. -/
def lastIdx (l : List ℚ) (v : ℚ) : ℕ := lastIdxAux v l 0 0

/-- The running-total scan of `SelectWeightedIndex` (kmeans.h lines 185-194)
over the (sorted) list, with accumulator `acc`; on success it returns
`weights_index_map[weight]` for the crossing weight; falling off the end is
the source's `throw` branch. -/
def swiScan (nw : List ℚ) (r : ℚ) : List ℚ → ℚ → Option ℕ
  | [], _ => none
  | w :: rest, acc => if r < acc + w then some (lastIdx nw w) else swiScan nw r rest (acc + w)

/-- `KMeans::SelectWeightedIndex` (kmeans.h lines 168-201): normalize the
weights, build the value-to-index map from the *unsorted* normalized weights,
sort the normalized weights ascending (`std::sort`), scan the sorted list
accumulating a running total against the drawn value `r`, and return the
mapped index of the first crossing weight.  `r` is the `drand48()` draw. -/
def SelectWeightedIndex (weights : List ℚ) (r : ℚ) : Option ℕ :=
  swiScan (normalizeW weights) r (List.insertionSort (fun a b => a ≤ b) (normalizeW weights)) 0

/-- Modelled from the spec: first index `i` of `l` whose cumulative sum
through `i` exceeds `r` (spec section 4.2 sentence "Return the first index i
(in original order) for which the cumulative sum through i exceeds r"). -/
def firstCrossing (l : List ℚ) (r : ℚ) : Option ℕ :=
  (List.range l.length).find? (fun i => decide (r < (l.take (i + 1)).sum))

/-- Modelled from the spec: the weighted selection the spec's section 4.2
describes, a cumulative scan over the normalized weights in their original
order, returning the crossing index itself. -/
def specSelectOriginalOrder (weights : List ℚ) (r : ℚ) : Option ℕ :=
  firstCrossing (normalizeW weights) r

/-- What the code actually computes, stated in spec style: find the first
crossing position of the cumulative sum over the *sorted* normalized
weights, and return the largest original index holding that position's
weight value. -/
def amendedSelect (weights : List ℚ) (r : ℚ) : Option ℕ :=
  let nw := normalizeW weights
  let s := List.insertionSort (fun a b => a ≤ b) nw
  (firstCrossing s r).map (fun i => lastIdx nw (s.getD i 0))

/-- State of the strict-minimum scan of `FindClosestCluster` (kmeans.h lines
255-270): `i` is the index of the head of the remaining distance list, `bi`
the best index so far, `bv` the best value so far (`none` models the initial
`std::numeric_limits<T>::max()`, which every finite distance is below). -/
def argminAux : List ℚ → ℕ → ℕ → Option ℚ → ℕ
  | [], _, bi, _ => bi
  | d :: rest, i, bi, bv =>
    if bv.all (fun v => d < v) then argminAux rest (i + 1) i (some d)
    else argminAux rest (i + 1) bi bv

/-- Index of the first strict minimum of a distance list (`0` on `[]`,
matching the source's `closestCluster = 0` initialization). -/
def argminFirst (l : List ℚ) : ℕ := argminAux l 0 0 none

/-- `KMeans::FindClosestCluster` (kmeans.h lines 255-270): scan clusters
`0 ≤ i < num`, keeping the first index of strictly smallest distance to the
query point.  The source compares the norms `(centers_.col(i) - q).norm()`;
we compare the squared distances, which orders identically. -/
def FindClosestCluster (centers : List (List ℚ)) (num : ℕ) (q : List ℚ) : ℕ :=
  argminFirst ((List.range num).map (fun i => sqDist (centers.getD i []) q))

/-- `KMeans::AssignLabels` (kmeans.h lines 218-226): label every sample with
its closest cluster among the `K` current centers. -/
def AssignLabels (data centers : List (List ℚ)) (K : ℕ) : List ℕ :=
  data.map (fun x => FindClosestCluster centers K x)

/-- Loop body of `GetIndicesWithLabel` (kmeans.h lines 140-152): walk the
labels with ascending index `i`, collecting the indices labelled `c`. -/
def gwlAux (c : ℕ) : List ℕ → ℕ → List ℕ
  | [], _ => []
  | l :: rest, i => if l = c then i :: gwlAux c rest (i + 1) else gwlAux c rest (i + 1)

/-- `KMeans::GetIndicesWithLabel`: sample indices currently labelled `c`. -/
def GetIndicesWithLabel (labels : List ℕ) (c : ℕ) : List ℕ := gwlAux c labels 0

/-- `KMeans::CheckChanged` (kmeans.h lines 204-216): whether any label
differs from the corresponding old label (elementwise comparison). -/
def CheckChanged (labels oldLabels : List ℕ) : Bool :=
  (List.zip labels oldLabels).any (fun p => p.1 ≠ p.2)

/-- Featurewise sum of a nonempty list of columns (the sum underlying
Eigen's `rowwise().mean()`). -/
def vsum : List (List ℚ) → List ℚ
  | [] => []
  | p :: rest => rest.foldl vadd p

/-- Featurewise arithmetic mean of the columns, `classPoints.rowwise().mean()`. -/
def meanCols (pts : List (List ℚ)) : List ℚ :=
  (vsum pts).map (fun x => x / (pts.length : ℚ))

/-- `KMeans::EstimateNewCenters` (kmeans.h lines 228-253): for each cluster,
gather its member columns; an empty cluster keeps the old center
(`oldCenters.col(cluster)`, copied before the loop), a nonempty one gets the
featurewise mean of its members. -/
def EstimateNewCenters (data : List (List ℚ)) (labels : List ℕ)
    (centers : List (List ℚ)) (K : ℕ) : List (List ℚ) :=
  (List.range K).map (fun cluster =>
    let classPoints := (GetIndicesWithLabel labels cluster).map (fun i => data.getD i [])
    if classPoints.length = 0 then centers.getD cluster [] else meanCols classPoints)

/-- Featurewise minimum over the sample columns, `rowwise().minCoeff()`. -/
def rowMin : List (List ℚ) → List ℚ
  | [] => []
  | c :: rest => rest.foldl (fun a b => List.zipWith (fun x y => min x y) a b) c

/-- Featurewise maximum over the sample columns, `rowwise().maxCoeff()`. -/
def rowMax : List (List ℚ) → List ℚ
  | [] => []
  | c :: rest => rest.foldl (fun a b => List.zipWith (fun x y => max x y) a b) c

/-- `KMeans::GetRandomPointInBounds` (kmeans.h lines 331-346): one uniform
draw per feature, scaled into the per-feature bounding box; returns the
random column together with the advanced `drand48` position. -/
def GetRandomPointInBounds (data : List (List ℚ)) (dstream : ℕ → ℚ) (dpos : ℕ) :
    List ℚ × ℕ :=
  let mn := rowMin data
  let mx := rowMax data
  ((List.range mn.length).map
      (fun i => dstream (dpos + i) * (mx.getD i 0 - mn.getD i 0) + mn.getD i 0),
    dpos + mn.length)

/-- `KMeans::RandomInit` (kmeans.h lines 348-355): draw the `K` centers in
ascending column order, threading the `drand48` position. -/
def RandomInit (data : List (List ℚ)) (dstream : ℕ → ℚ) :
    ℕ → ℕ → List (List ℚ) × ℕ
  | 0, dpos => ([], dpos)
  | k + 1, dpos =>
    let pd := GetRandomPointInBounds data dstream dpos
    let rest := RandomInit data dstream k pd.2
    (pd.1 :: rest.1, rest.2)

/-- Tail of `KMeans::KMeansPPInit` (kmeans.h lines 364-379): for each of the
`remaining` centers, weight every sample by the squared distance to its
nearest already-chosen center, draw one `drand48` value, and append the
sample selected by `SelectWeightedIndex`; `none` models the sampler's fatal
throw. -/
def ppAux (data : List (List ℚ)) (dstream : ℕ → ℚ) :
    ℕ → List (List ℚ) → ℕ → Option (List (List ℚ)) × ℕ
  | 0, cs, dpos => (some cs, dpos)
  | n + 1, cs, dpos =>
    let weights := data.map (fun x => sqDist (cs.getD (FindClosestCluster cs cs.length x) []) x)
    match SelectWeightedIndex weights (dstream dpos) with
    | none => (none, dpos + 1)
    | some idx => ppAux data dstream n (cs ++ [data.getD idx []]) (dpos + 1)

/-- `KMeans::KMeansPPInit` (kmeans.h lines 357-380): pick the first center as
the sample at `rand() % cols` (one draw from the `rand()` stream, whose
position is *not* reset by `srand48`), then the remaining `K - 1` by weighted
sampling.  `K = 0` or an empty dataset is the source's out-of-bounds
`centers_.col(0)` write (resp. `% 0`), modelled as failure. -/
def KMeansPPInit (data : List (List ℚ)) (K : ℕ) (dstream : ℕ → ℚ) (dpos : ℕ)
    (rstream : ℕ → ℕ) (rpos : ℕ) : Option (List (List ℚ)) × ℕ × ℕ :=
  if K = 0 ∨ data.length = 0 then (none, dpos, rpos + 1)
  else
    let randomId := rstream rpos % data.length
    let res := ppAux data dstream (K - 1) [data.getD randomId []] dpos
    (res.1, res.2, rpos + 1)

/-- Outcome of a `Cluster`/`Fit` call: a fatal configuration error, a fatal
sampler/initializer error, fuel exhaustion of the (uncapped) loop, or a
completed run carrying the labels, the final centers, and the advanced
`rand()` position. -/
inductive KMRes where
  | configError : KMRes
  | initError : KMRes
  | outOfFuel : KMRes
  | done : List ℕ → List (List ℚ) → ℕ → KMRes
deriving DecidableEq

/-- The do-while loop of `KMeans::Cluster` (kmeans.h lines 123-134): assign
labels, estimate new centers, and repeat while any label changed; `fuel`
bounds the number of iterations we are willing to unfold. -/
def lloyd (data : List (List ℚ)) (K : ℕ) :
    ℕ → List (List ℚ) → List ℕ → ℕ → KMRes
  | 0, _, _, _ => .outOfFuel
  | fuel + 1, centers, oldLabels, rpos =>
    let labels := AssignLabels data centers K
    let centers2 := EstimateNewCenters data labels centers K
    if CheckChanged labels oldLabels then lloyd data K fuel centers2 labels rpos
    else .done labels centers2 rpos

/-- The initialization methods of kmeans.h line 36. -/
inductive InitMethod where
  | RANDOM : InitMethod
  | KMEANSPP : InitMethod
  | MANUAL : InitMethod
deriving DecidableEq

/-- `KMeans::Cluster` (kmeans.h lines 74-138) with `Random = false`: reject
`K` larger than the sample count, reseed `drand48` (the `drand48` position
restarts at `0`; the `rand()` position `rpos` is carried in from the caller,
since `srand48` does not touch `rand`), run the configured initializer on the
post-resize center matrix `centers0`, then iterate the loop starting from the
all-zero old-label vector. -/
def Cluster (data : List (List ℚ)) (K : ℕ) (centers0 : List (List ℚ))
    (method : InitMethod) (dstream : ℕ → ℚ) (rstream : ℕ → ℕ) (rpos : ℕ)
    (fuel : ℕ) : KMRes :=
  if data.length < K then .configError
  else
    match method with
    | .RANDOM =>
      lloyd data K fuel (RandomInit data dstream K 0).1 (List.replicate data.length 0) rpos
    | .KMEANSPP =>
      match KMeansPPInit data K dstream 0 rstream rpos with
      | (none, _, _) => .initError
      | (some cs, _, rpos2) => lloyd data K fuel cs (List.replicate data.length 0) rpos2
    | .MANUAL => lloyd data K fuel centers0 (List.replicate data.length 0) rpos

/-- `KMeans::Fit` (kmeans.h lines 68-72): store `K`, resize the center
matrix (`centers0` stands for its post-resize contents), and cluster. -/
def Fit (data : List (List ℚ)) (k : ℕ) (centers0 : List (List ℚ))
    (method : InitMethod) (dstream : ℕ → ℚ) (rstream : ℕ → ℕ) (rpos : ℕ)
    (fuel : ℕ) : KMRes :=
  Cluster data k centers0 method dstream rstream rpos fuel

/-- Addition on NaN-tracking values: `none` models a floating-point NaN,
which propagates through `+`. -/
noncomputable def oadd : Option ℝ → Option ℝ → Option ℝ
  | some x, some y => some (x + y)
  | _, _ => none

/-- Division of a NaN-tracking value by a count: dividing by a zero count is
the source's `0.0 / 0` and yields NaN. -/
noncomputable def odiv (v : Option ℝ) (n : ℕ) : Option ℝ :=
  if n = 0 then none else v.map (fun x => x / (n : ℝ))

/-- `KMeans::ComputeMLEVariance` (kmeans.h lines 393-422): for each cluster,
sum the (non-squared) distances of its members to the cluster center, divide
by the member count — also when that count is zero, the `0.0 / 0` that the
dead `variance = 0` branch does not prevent — and accumulate over clusters. -/
noncomputable def ComputeMLEVariance (data : List (List ℚ))
    (centers : List (List ℚ)) (labels : List ℕ) (K : ℕ) : Option ℝ :=
  (List.range K).foldl
    (fun acc i =>
      let idxs := GetIndicesWithLabel labels i
      let clusterCenter := centers.getD i []
      let variance := idxs.foldl
        (fun v j => oadd v (some (Real.sqrt ((sqDist clusterCenter (data.getD j []) : ℚ) : ℝ))))
        (some 0)
      oadd acc (odiv variance idxs.length))
    (some 0)

/-- A matrix of the collaborator library `cpu_operations.h`: explicit row
and column counts with an entry function. -/
structure NMatrix (α : Type) where
  rows : ℕ
  cols : ℕ
  entry : ℕ → ℕ → α

/-- `CpuOperations::Add` for two matrices (cpu_operations.h lines 87-102):
`exit(1)` (modelled `none`) on a size mismatch, then `exit(1)` when the row
count is zero; otherwise the entrywise sum.  A zero-column operand with a
positive row count passes both checks. -/
def cpuAdd (a b : NMatrix ℚ) : Option (NMatrix ℚ) :=
  if a.rows ≠ b.rows ∨ a.cols ≠ b.cols then none
  else if a.rows = 0 then none
  else some ⟨a.rows, a.cols, fun i j => a.entry i j + b.entry i j⟩

/-- `CpuOperations::LogicalAnd` for two matrices (cpu_operations.h lines
170-179): `exit(1)` on a size mismatch only — there is no emptiness check —
otherwise the entrywise conjunction. -/
def cpuLogicalAnd (a b : NMatrix Bool) : Option (NMatrix Bool) :=
  if a.rows ≠ b.rows ∨ a.cols ≠ b.cols then none
  else some ⟨a.rows, a.cols, fun i j => a.entry i j && b.entry i j⟩

lemma argminAux_some_spec (l : List ℚ) : ∀ (i bi : ℕ) (v : ℚ),
    (argminAux l i bi (some v) = bi ∧ ∀ j < l.length, v ≤ l.getD j 0) ∨
    (∃ j, j < l.length ∧ argminAux l i bi (some v) = i + j ∧ l.getD j 0 < v ∧
      (∀ m < l.length, l.getD j 0 ≤ l.getD m 0) ∧
      (∀ m < j, l.getD j 0 < l.getD m 0)) := by
  induction l with
  | nil =>
    intro i bi v
    left
    refine ⟨rfl, ?_⟩
    intro j hj
    simp at hj
  | cons d rest ih =>
    intro i bi v
    by_cases hd : d < v
    · have hstep : argminAux (d :: rest) i bi (some v) = argminAux rest (i + 1) i (some d) := by
        simp [argminAux, hd]
      rcases ih (i + 1) i d with ⟨heq, hall⟩ | ⟨j, hj, heq, hlt, hmin, hstrict⟩
      · right
        refine ⟨0, by simp, ?_, by simpa using hd, ?_, ?_⟩
        · rw [hstep, heq]; omega
        · intro m hm
          match m with
          | 0 => exact le_refl _
          | Nat.succ m' =>
            simp only [List.getD_cons_zero, List.getD_cons_succ]
            exact hall m' (by simpa using hm)
        · intro m hm
          omega
      · right
        refine ⟨j + 1, by simpa using hj, ?_, ?_, ?_, ?_⟩
        · rw [hstep, heq]; omega
        · simp only [List.getD_cons_succ]
          exact lt_trans hlt hd
        · intro m hm
          match m with
          | 0 =>
            simp only [List.getD_cons_zero, List.getD_cons_succ]
            exact le_of_lt hlt
          | Nat.succ m' =>
            simp only [List.getD_cons_succ]
            exact hmin m' (by simpa using hm)
        · intro m hm
          match m with
          | 0 =>
            simp only [List.getD_cons_zero, List.getD_cons_succ]
            exact hlt
          | Nat.succ m' =>
            simp only [List.getD_cons_succ]
            exact hstrict m' (by omega)
    · have hstep : argminAux (d :: rest) i bi (some v) = argminAux rest (i + 1) bi (some v) := by
        simp [argminAux, hd]
      rcases ih (i + 1) bi v with ⟨heq, hall⟩ | ⟨j, hj, heq, hlt, hmin, hstrict⟩
      · left
        refine ⟨by rw [hstep, heq], ?_⟩
        intro m hm
        match m with
        | 0 => simpa using le_of_not_lt hd
        | Nat.succ m' =>
          simp only [List.getD_cons_succ]
          exact hall m' (by simpa using hm)
      · right
        refine ⟨j + 1, by simpa using hj, ?_, ?_, ?_, ?_⟩
        · rw [hstep, heq]; omega
        · simp only [List.getD_cons_succ]
          exact hlt
        · intro m hm
          match m with
          | 0 =>
            simp only [List.getD_cons_zero, List.getD_cons_succ]
            exact le_of_lt (lt_of_lt_of_le hlt (le_of_not_lt hd))
          | Nat.succ m' =>
            simp only [List.getD_cons_succ]
            exact hmin m' (by simpa using hm)
        · intro m hm
          match m with
          | 0 =>
            simp only [List.getD_cons_zero, List.getD_cons_succ]
            exact lt_of_lt_of_le hlt (le_of_not_lt hd)
          | Nat.succ m' =>
            simp only [List.getD_cons_succ]
            exact hstrict m' (by omega)

lemma argminFirst_spec (l : List ℚ) (hl : l ≠ []) :
    argminFirst l < l.length ∧
    (∀ m < l.length, l.getD (argminFirst l) 0 ≤ l.getD m 0) ∧
    (∀ m < argminFirst l, l.getD (argminFirst l) 0 < l.getD m 0) := by
  match l with
  | [] => exact absurd rfl hl
  | d :: rest =>
    have hstep : argminFirst (d :: rest) = argminAux rest 1 0 (some d) := by
      simp [argminFirst, argminAux]
    rcases argminAux_some_spec rest 1 0 d with ⟨heq, hall⟩ | ⟨j, hj, heq, hlt, hmin, hstrict⟩
    · rw [hstep, heq]
      refine ⟨by simp, ?_, ?_⟩
      · intro m hm
        match m with
        | 0 => exact le_refl _
        | Nat.succ m' =>
          simp only [List.getD_cons_zero, List.getD_cons_succ]
          exact hall m' (by simpa using hm)
      · intro m hm
        omega
    · rw [hstep, heq]
      have h1j : 1 + j = j + 1 := by omega
      rw [h1j]
      refine ⟨by simpa using hj, ?_, ?_⟩
      · intro m hm
        match m with
        | 0 =>
          simp only [List.getD_cons_zero, List.getD_cons_succ]
          exact le_of_lt hlt
        | Nat.succ m' =>
          simp only [List.getD_cons_succ]
          exact hmin m' (by simpa using hm)
      · intro m hm
        match m with
        | 0 =>
          simp only [List.getD_cons_zero, List.getD_cons_succ]
          exact hlt
        | Nat.succ m' =>
          simp only [List.getD_cons_succ]
          exact hstrict m' (by omega)

lemma getD_range_map {α : Type} (f : ℕ → α) (K c : ℕ) (d : α) (hc : c < K) :
    ((List.range K).map f).getD c d = f c := by
  rw [List.getD_eq_getElem?_getD]
  simp [List.getElem?_map, List.getElem?_range hc]

lemma sqNorm_nonneg (v : List ℚ) : 0 ≤ sqNorm v := by
  apply List.sum_nonneg
  intro x hx
  rcases List.mem_map.mp hx with ⟨y, _, rfl⟩
  exact mul_self_nonneg y

lemma euclidDist_le_of_sqDist_le {a b q : List ℚ} (h : sqDist a q ≤ sqDist b q) :
    euclidDist a q ≤ euclidDist b q :=
  Real.sqrt_le_sqrt (by exact_mod_cast h)

lemma euclidDist_lt_of_sqDist_lt {a b q : List ℚ} (h : sqDist a q < sqDist b q) :
    euclidDist a q < euclidDist b q :=
  Real.sqrt_lt_sqrt (by exact_mod_cast sqNorm_nonneg (vsub a q)) (by exact_mod_cast h)

lemma findClosestCluster_spec (centers : List (List ℚ)) (num : ℕ) (q : List ℚ)
    (hnum : 0 < num) :
    FindClosestCluster centers num q < num ∧
    (∀ m < num, sqDist (centers.getD (FindClosestCluster centers num q) []) q ≤
      sqDist (centers.getD m []) q) ∧
    (∀ m < FindClosestCluster centers num q,
      sqDist (centers.getD (FindClosestCluster centers num q) []) q <
        sqDist (centers.getD m []) q) := by
  have hlen : ((List.range num).map (fun i => sqDist (centers.getD i []) q)).length = num := by
    simp
  have hne : ((List.range num).map (fun i => sqDist (centers.getD i []) q)) ≠ [] := by
    intro h
    rw [h] at hlen
    simp at hlen
    omega
  have hJ : FindClosestCluster centers num q =
      argminFirst ((List.range num).map (fun i => sqDist (centers.getD i []) q)) := rfl
  obtain ⟨h1, h2, h3⟩ := argminFirst_spec _ hne
  rw [hlen] at h1 h2
  rw [← hJ] at h1 h2 h3
  refine ⟨h1, ?_, ?_⟩
  · intro m hm
    have t := h2 m hm
    rwa [getD_range_map _ _ _ _ h1, getD_range_map _ _ _ _ hm] at t
  · intro m hm
    have t := h3 m hm
    rwa [getD_range_map _ _ _ _ h1, getD_range_map _ _ _ _ (lt_trans hm h1)] at t

lemma getD_mem_of_lt {α : Type} (l : List α) (j : ℕ) (d : α) (h : j < l.length) :
    l.getD j d ∈ l := by
  rw [List.getD_eq_getElem?_getD, List.getElem?_eq_getElem h]
  exact List.getElem_mem h

lemma lastIdxAux_spec (l : List ℚ) : ∀ (v : ℚ) (i best : ℕ),
    (v ∉ l ∧ lastIdxAux v l i best = best) ∨
    (∃ j, j < l.length ∧ lastIdxAux v l i best = i + j ∧ l.getD j 0 = v ∧
      ∀ m, j < m → m < l.length → l.getD m 0 ≠ v) := by
  induction l with
  | nil =>
    intro v i best
    left
    exact ⟨by simp, rfl⟩
  | cons x rest ih =>
    intro v i best
    have hstep : lastIdxAux v (x :: rest) i best =
        lastIdxAux v rest (i + 1) (if x = v then i else best) := rfl
    rcases ih v (i + 1) (if x = v then i else best) with ⟨hnm, heq⟩ | ⟨j, hj, heq, hv, hlater⟩
    · by_cases hx : x = v
      · right
        refine ⟨0, by simp, ?_, by simpa using hx, ?_⟩
        · rw [hstep, heq, if_pos hx]; omega
        · intro m hm0 hm
          match m with
          | Nat.succ m' =>
            simp only [List.getD_cons_succ]
            intro hc
            exact hnm (hc ▸ getD_mem_of_lt rest m' 0 (by simpa using hm))
      · left
        refine ⟨?_, by rw [hstep, heq, if_neg hx]⟩
        intro hc
        rcases List.mem_cons.mp hc with h | h
        · exact hx h.symm
        · exact hnm h
    · right
      refine ⟨j + 1, by simpa using hj, ?_, ?_, ?_⟩
      · rw [hstep, heq]; omega
      · simpa only [List.getD_cons_succ] using hv
      · intro m hm0 hm
        match m with
        | Nat.succ m' =>
          simp only [List.getD_cons_succ]
          exact hlater m' (by omega) (by simpa using hm)

lemma lastIdx_spec (l : List ℚ) (v : ℚ) (hv : v ∈ l) :
    lastIdx l v < l.length ∧ l.getD (lastIdx l v) 0 = v ∧
      ∀ m, lastIdx l v < m → m < l.length → l.getD m 0 ≠ v := by
  rcases lastIdxAux_spec l v 0 0 with ⟨hnm, _⟩ | ⟨j, hj, heq, hgv, hlater⟩
  · exact absurd hv hnm
  · have : lastIdx l v = j := by simpa [lastIdx] using heq
    rw [this]
    exact ⟨hj, hgv, hlater⟩

lemma swiScan_some_mem (nw : List ℚ) (r : ℚ) : ∀ (l : List ℚ) (acc : ℚ) (i : ℕ),
    swiScan nw r l acc = some i → ∃ w ∈ l, i = lastIdx nw w := by
  intro l
  induction l with
  | nil =>
    intro acc i h
    simp [swiScan] at h
  | cons w rest ih =>
    intro acc i h
    rw [swiScan] at h
    by_cases hr : r < acc + w
    · rw [if_pos hr] at h
      exact ⟨w, List.mem_cons_self _ _, (Option.some_inj.mp h).symm⟩
    · rw [if_neg hr] at h
      rcases ih (acc + w) i h with ⟨w2, hw2, hi⟩
      exact ⟨w2, List.mem_cons_of_mem _ hw2, hi⟩

lemma swiScan_eq_firstCrossing (nw : List ℚ) (r : ℚ) : ∀ (l : List ℚ) (acc : ℚ),
    swiScan nw r l acc =
      ((List.range l.length).find? (fun i => decide (r < acc + (l.take (i + 1)).sum))).map
        (fun i => lastIdx nw (l.getD i 0)) := by
  intro l
  induction l with
  | nil =>
    intro acc
    simp [swiScan]
  | cons w rest ih =>
    intro acc
    rw [swiScan]
    by_cases hr : r < acc + w
    · rw [if_pos hr]
      have hfc : List.find? (fun i => decide (r < acc + (((w :: rest).take (i + 1)).sum)))
          (0 :: (List.range rest.length).map Nat.succ) = some 0 := by
        apply List.find?_cons_of_pos
        simp [hr]
      rw [List.length_cons, List.range_succ_eq_map, hfc]
      simp
    · rw [if_neg hr]
      have hfc : List.find? (fun i => decide (r < acc + (((w :: rest).take (i + 1)).sum)))
          (0 :: (List.range rest.length).map Nat.succ)
          = List.find? (fun i => decide (r < acc + (((w :: rest).take (i + 1)).sum)))
            ((List.range rest.length).map Nat.succ) := by
        apply List.find?_cons_of_neg
        simp [hr]
      rw [List.length_cons, List.range_succ_eq_map, hfc, List.find?_map, Option.map_map,
        ih (acc + w)]
      have hfun : ((fun i => decide (r < acc + (((w :: rest).take (i + 1)).sum))) ∘ Nat.succ)
          = (fun i => decide (r < acc + w + ((rest.take (i + 1)).sum))) := by
        funext i
        simp [Function.comp, List.take_succ_cons, add_assoc]
      rw [hfun]
      have hgun : ((fun i => lastIdx nw ((w :: rest).getD i 0)) ∘ Nat.succ)
          = (fun i => lastIdx nw (rest.getD i 0)) := by
        funext i
        simp [Function.comp]
      rw [hgun]

theorem selectWeightedIndex_eq_amended_unconditional (weights : List ℚ) (r : ℚ) :
    SelectWeightedIndex weights r = amendedSelect weights r := by
  have hp : (fun i => decide (r < 0 +
        (((List.insertionSort (fun a b => a ≤ b) (normalizeW weights)).take (i + 1)).sum)))
      = (fun i => decide (r <
        (((List.insertionSort (fun a b => a ≤ b) (normalizeW weights)).take (i + 1)).sum))) := by
    funext i
    norm_num
  simp only [SelectWeightedIndex, amendedSelect, firstCrossing]
  rw [swiScan_eq_firstCrossing (normalizeW weights) r _ 0, hp]

lemma gwlAux_mem (c : ℕ) (l : List ℕ) : ∀ (i j : ℕ),
    j ∈ gwlAux c l i ↔ ∃ m, m < l.length ∧ j = i + m ∧ l.getD m 0 = c := by
  induction l with
  | nil =>
    intro i j
    simp [gwlAux]
  | cons x rest ih =>
    intro i j
    by_cases hx : x = c
    · rw [gwlAux, if_pos hx]
      constructor
      · intro h
        rcases List.mem_cons.mp h with h | h
        · exact ⟨0, by simp, by omega, by simpa using hx⟩
        · rcases (ih (i + 1) j).mp h with ⟨m, hm, hj, hv⟩
          exact ⟨m + 1, by simpa using hm, by omega, by simpa using hv⟩
      · rintro ⟨m, hm, hj, hv⟩
        match m with
        | 0 => exact hj ▸ List.mem_cons_self _ _
        | Nat.succ m2 =>
          apply List.mem_cons_of_mem
          exact (ih (i + 1) j).mpr ⟨m2, by simpa using hm, by omega, by simpa using hv⟩
    · rw [gwlAux, if_neg hx]
      constructor
      · intro h
        rcases (ih (i + 1) j).mp h with ⟨m, hm, hj, hv⟩
        exact ⟨m + 1, by simpa using hm, by omega, by simpa using hv⟩
      · rintro ⟨m, hm, hj, hv⟩
        match m with
        | 0 => exact absurd (by simpa using hv) hx
        | Nat.succ m2 =>
          exact (ih (i + 1) j).mpr ⟨m2, by simpa using hm, by omega, by simpa using hv⟩

lemma getIndicesWithLabel_mem (labels : List ℕ) (c j : ℕ) :
    j ∈ GetIndicesWithLabel labels c ↔ j < labels.length ∧ labels.getD j 0 = c := by
  rw [GetIndicesWithLabel, gwlAux_mem]
  constructor
  · rintro ⟨m, hm, hj, hv⟩
    exact ⟨by omega, by rwa [show j = m by omega]⟩
  · rintro ⟨hj, hv⟩
    exact ⟨j, hj, by omega, hv⟩

lemma getIndicesWithLabel_eq_nil (labels : List ℕ) (c : ℕ) :
    GetIndicesWithLabel labels c = [] ↔ ∀ m < labels.length, labels.getD m 0 ≠ c := by
  rw [List.eq_nil_iff_forall_not_mem]
  constructor
  · intro h m hm hv
    exact h m ((getIndicesWithLabel_mem labels c m).mpr ⟨hm, hv⟩)
  · intro h j hj
    rcases (getIndicesWithLabel_mem labels c j).mp hj with ⟨hl, hv⟩
    exact h j hl hv

lemma getD_map_of_lt (l : List ℚ) (g : ℚ → ℚ) (f : ℕ)
    (h : f < l.length) (d : ℚ) : (l.map g).getD f d = g (l.getD f 0) := by
  rw [List.getD_eq_getElem?_getD, List.getElem?_map, List.getElem?_eq_getElem h,
    List.getD_eq_getElem?_getD, List.getElem?_eq_getElem h]
  rfl

lemma getD_vadd (a b : List ℚ) (f : ℕ) (ha : f < a.length) (hb : f < b.length) :
    (vadd a b).getD f 0 = a.getD f 0 + b.getD f 0 := by
  have hl : f < (vadd a b).length := by
    simp [vadd]
    omega
  rw [List.getD_eq_getElem?_getD, List.getElem?_eq_getElem hl]
  rw [List.getD_eq_getElem?_getD, List.getElem?_eq_getElem ha]
  rw [List.getD_eq_getElem?_getD, List.getElem?_eq_getElem hb]
  simp [vadd]

lemma foldl_vadd_spec (rows : ℕ) : ∀ (L : List (List ℚ)) (a : List ℚ),
    a.length = rows → (∀ p ∈ L, p.length = rows) →
    (L.foldl vadd a).length = rows ∧
    (∀ f < rows, (L.foldl vadd a).getD f 0 = a.getD f 0 + (L.map (fun p => p.getD f 0)).sum) := by
  intro L
  induction L with
  | nil =>
    intro a ha _
    refine ⟨ha, ?_⟩
    intro f _
    simp
  | cons p rest ih =>
    intro a ha hall
    have hp : p.length = rows := hall p (List.mem_cons_self _ _)
    have hap : (vadd a p).length = rows := by
      simp [vadd]
      omega
    obtain ⟨hlen, hgd⟩ := ih (vadd a p) hap (fun q hq => hall q (List.mem_cons_of_mem _ hq))
    refine ⟨by simpa [List.foldl_cons] using hlen, ?_⟩
    intro f hf
    rw [List.foldl_cons, hgd f hf, getD_vadd a p f (by omega) (by omega)]
    simp [add_assoc]

lemma meanCols_getD (pts : List (List ℚ)) (rows : ℕ) (hne : pts ≠ [])
    (hall : ∀ p ∈ pts, p.length = rows) (f : ℕ) (hf : f < rows) :
    (meanCols pts).getD f 0 = (pts.map (fun p => p.getD f 0)).sum / (pts.length : ℚ) := by
  match pts with
  | [] => exact absurd rfl hne
  | p :: rest =>
    have hp : p.length = rows := hall p (List.mem_cons_self _ _)
    obtain ⟨hlen, hgd⟩ := foldl_vadd_spec rows rest p hp
      (fun q hq => hall q (List.mem_cons_of_mem _ hq))
    have hv : vsum (p :: rest) = rest.foldl vadd p := rfl
    rw [meanCols, getD_map_of_lt _ _ f (by rw [hv, hlen]; exact hf) 0, hv, hgd f hf]
    simp

lemma assignLabels_length (data centers : List (List ℚ)) (K : ℕ) :
    (AssignLabels data centers K).length = data.length := by
  simp [AssignLabels]

lemma assignLabels_mem_lt (data centers : List (List ℚ)) (K : ℕ) (hK : 0 < K) :
    ∀ l ∈ AssignLabels data centers K, l < K := by
  intro l hl
  rcases List.mem_map.mp hl with ⟨x, _, rfl⟩
  exact (findClosestCluster_spec centers K x hK).1

lemma lloyd_done_labels (data : List (List ℚ)) (K : ℕ) : ∀ (fuel : ℕ)
    (cs : List (List ℚ)) (old : List ℕ) (rp : ℕ) (labels : List ℕ)
    (cs2 : List (List ℚ)) (rp2 : ℕ),
    lloyd data K fuel cs old rp = .done labels cs2 rp2 →
    ∃ c, labels = AssignLabels data c K := by
  intro fuel
  induction fuel with
  | zero =>
    intro cs old rp labels cs2 rp2 h
    simp [lloyd] at h
  | succ f ih =>
    intro cs old rp labels cs2 rp2 h
    rw [lloyd] at h
    by_cases hch : CheckChanged (AssignLabels data cs K) old = true
    · rw [if_pos hch] at h
      exact ih _ _ _ _ _ _ h
    · rw [if_neg hch] at h
      injection h with h1 h2 h3
      exact ⟨cs, h1.symm⟩

lemma fit_done_labels (data : List (List ℚ)) (k : ℕ) (centers0 : List (List ℚ))
    (method : InitMethod) (dstream : ℕ → ℚ) (rstream : ℕ → ℕ) (rpos fuel : ℕ)
    (labels : List ℕ) (cs : List (List ℚ)) (rp2 : ℕ)
    (h : Fit data k centers0 method dstream rstream rpos fuel = .done labels cs rp2) :
    ∃ c, labels = AssignLabels data c k := by
  rw [Fit, Cluster.eq_def] at h
  by_cases hk : data.length < k
  · rw [if_pos hk] at h
    exact absurd h (by simp)
  · rw [if_neg hk] at h
    cases method with
    | RANDOM => exact lloyd_done_labels _ _ _ _ _ _ _ _ _ h
    | KMEANSPP =>
      rcases hpp : KMeansPPInit data k dstream 0 rstream rpos with ⟨o, dp, rp⟩
      rw [hpp] at h
      match o with
      | none => exact absurd h (by simp)
      | some cs1 => exact lloyd_done_labels _ _ _ _ _ _ _ _ _ h
    | MANUAL => exact lloyd_done_labels _ _ _ _ _ _ _ _ _ h

/-- C1, counterexample: the claim says `SelectWeightedIndex` returns the first
index, in the weights' original order, whose original-order cumulative sum
exceeds `r`.  For weights `[3, 1]` (positive sum) and `r = 1/10` that first
index is `0` (its normalized cumulative sum is `3/4 > 1/10`), but the code,
which scans the *sorted* normalized weights `[1/4, 3/4]`, crosses at `1/4`
and returns the index `1` mapped to that weight. -/
theorem selectWeightedIndex_ignores_original_order_cex :
    SelectWeightedIndex [3, 1] (1 / 10) = some 1 ∧
    specSelectOriginalOrder [3, 1] (1 / 10) = some 0 := by
  constructor
  · norm_num [SelectWeightedIndex, normalizeW, swiScan, lastIdx, lastIdxAux,
      List.insertionSort, List.orderedInsert]
  · norm_num [specSelectOriginalOrder, firstCrossing, normalizeW, List.find?]

/-- C1, amended: for every weight vector with positive sum and every drawn
`r` in `[0,1)`, `SelectWeightedIndex` returns the original index associated
with the first position, in ascending *sorted* order of the normalized
weights, whose cumulative sum over the sorted order exceeds `r`; the original
index recovered for that position is the largest original index holding that
normalized weight value, so sorting does change which original index a given
cumulative slot maps to. -/
theorem selectWeightedIndex_sorted_crossing (weights : List ℚ) (r : ℚ)
    (_hsum : 0 < weights.sum) (_hr0 : 0 ≤ r) (_hr1 : r < 1) :
    SelectWeightedIndex weights r = amendedSelect weights r :=
  selectWeightedIndex_eq_amended_unconditional weights r

/-- C1, witness for the amended theorem at weights `[3, 1]`, `r = 1/10`. -/
theorem selectWeightedIndex_sorted_crossing_witness :
    0 < ([3, 1] : List ℚ).sum ∧ (0 : ℚ) ≤ 1 / 10 ∧ (1 : ℚ) / 10 < 1 ∧
    SelectWeightedIndex [3, 1] (1 / 10) = amendedSelect [3, 1] (1 / 10) :=
  ⟨by norm_num, by norm_num, by norm_num,
    selectWeightedIndex_sorted_crossing [3, 1] (1 / 10) (by norm_num) (by norm_num)
      (by norm_num)⟩

/-- C5: whenever the requested cluster count exceeds the sample count
(`input_data.cols() < K`), `Fit` reports the fatal configuration error, for
every initialization method, every state of both random streams, and even
with zero loop fuel — so before any initialization, assignment or
iteration. -/
theorem fit_rejects_k_gt_samples (data : List (List ℚ)) (k : ℕ)
    (centers0 : List (List ℚ)) (method : InitMethod) (dstream : ℕ → ℚ)
    (rstream : ℕ → ℕ) (rpos fuel : ℕ) (h : data.length < k) :
    Fit data k centers0 method dstream rstream rpos fuel = .configError := by
  rw [Fit, Cluster.eq_def, if_pos h]

/-- C5, witness: `K = 3` on a 2-sample dataset fails with the configuration
error (with zero fuel, so no iteration took place). -/
theorem fit_rejects_k_gt_samples_witness :
    ([[0], [1]] : List (List ℚ)).length < 3 ∧
    Fit [[0], [1]] 3 [] .KMEANSPP (fun _ => 1 / 2) (fun _ => 0) 0 0 = .configError :=
  ⟨by norm_num, fit_rejects_k_gt_samples [[0], [1]] 3 [] .KMEANSPP (fun _ => 1 / 2)
    (fun _ => 0) 0 0 (by norm_num)⟩

/-- C6: for the weight vector `[0, 0, 1, 0]` and every drawn `r` in `[0,1)`,
`SelectWeightedIndex` returns index `2`. -/
theorem selectWeightedIndex_unit_weight (r : ℚ) (h0 : 0 ≤ r) (h1 : r < 1) :
    SelectWeightedIndex [0, 0, 1, 0] r = some 2 := by
  have hnw : normalizeW [0, 0, 1, 0] = [0, 0, 1, 0] := by
    norm_num [normalizeW]
  have hs : List.insertionSort (fun a b => a ≤ b) ([0, 0, 1, 0] : List ℚ)
      = [0, 0, 0, 1] := by
    norm_num [List.insertionSort, List.orderedInsert]
  rw [SelectWeightedIndex, hnw, hs, swiScan, if_neg (by simpa using h0), swiScan,
    if_neg (by simpa using h0), swiScan, if_neg (by simpa using h0), swiScan,
    if_pos (by simpa using h1)]
  norm_num [lastIdx, lastIdxAux]

/-- C6, witness at `r = 1/2`. -/
theorem selectWeightedIndex_unit_weight_witness :
    (0 : ℚ) ≤ 1 / 2 ∧ (1 : ℚ) / 2 < 1 ∧
    SelectWeightedIndex [0, 0, 1, 0] (1 / 2) = some 2 :=
  ⟨by norm_num, by norm_num,
    selectWeightedIndex_unit_weight (1 / 2) (by norm_num) (by norm_num)⟩

/-- C10: whenever the returned index `i` of `SelectWeightedIndex` has a later
index `j` with the same weight (weights with positive sum normalize by a
common positive factor, so equal weights are equal normalized weights), that
cannot happen: the value-to-index map keeps only the *largest* index holding
each normalized weight value, so a returned index is always the last among
its duplicates — and in particular for weights `[1, 1]` every draw in
`[0,1)` returns index `1`. -/
theorem selectWeightedIndex_last_duplicate :
    (∀ (weights : List ℚ) (r : ℚ) (i j : ℕ), 0 < weights.sum →
      SelectWeightedIndex weights r = some i → i < j → j < weights.length →
      weights.getD j 0 ≠ weights.getD i 0) ∧
    (∀ r : ℚ, 0 ≤ r → r < 1 → SelectWeightedIndex [1, 1] r = some 1) := by
  constructor
  · intro weights r i j hsum h hij hj hequal
    rw [SelectWeightedIndex] at h
    rcases swiScan_some_mem (normalizeW weights) r _ 0 i h with ⟨v, hv, hi⟩
    have hvnw : v ∈ normalizeW weights := (List.perm_insertionSort _ _).mem_iff.mp hv
    obtain ⟨hilen, hival, hlater⟩ := lastIdx_spec (normalizeW weights) v hvnw
    rw [← hi] at hilen hival hlater
    have hnlen : (normalizeW weights).length = weights.length := by
      simp [normalizeW]
    apply hlater j hij (by rwa [hnlen])
    rw [← hival]
    have hgj : (normalizeW weights).getD j 0 = weights.getD j 0 / weights.sum := by
      rw [normalizeW, getD_map_of_lt _ _ j hj]
    have hgi : (normalizeW weights).getD i 0 = weights.getD i 0 / weights.sum := by
      rw [normalizeW, getD_map_of_lt _ _ i (by omega)]
    rw [hgj, hgi, hequal]
  · intro r h0 h1
    have hnw : normalizeW [1, 1] = [1 / 2, 1 / 2] := by
      norm_num [normalizeW]
    have hs : List.insertionSort (fun a b => a ≤ b) ([1 / 2, 1 / 2] : List ℚ)
        = [1 / 2, 1 / 2] := by
      norm_num [List.insertionSort, List.orderedInsert]
    rw [SelectWeightedIndex, hnw, hs]
    by_cases hr : r < 1 / 2
    · rw [swiScan, if_pos (by simpa using hr)]
      norm_num [lastIdx, lastIdxAux]
    · rw [swiScan, if_neg (by simpa using hr), swiScan, if_pos (by norm_num; linarith)]
      norm_num [lastIdx, lastIdxAux]

/-- C10, witness: the general part applied at weights `[1, 1, 4]`, draw
`1/12` (which selects index `1`, the last of the two duplicates of weight
`1`), and the example part applied at `r = 1/2`. -/
theorem selectWeightedIndex_last_duplicate_witness :
    (0 < ([1, 1, 4] : List ℚ).sum ∧ SelectWeightedIndex [1, 1, 4] (1 / 12) = some 1 ∧
      ([1, 1, 4] : List ℚ).getD 2 0 ≠ ([1, 1, 4] : List ℚ).getD 1 0) ∧
    SelectWeightedIndex [1, 1] (1 / 2) = some 1 := by
  have hsel : SelectWeightedIndex [1, 1, 4] (1 / 12) = some 1 := by
    norm_num [SelectWeightedIndex, normalizeW, swiScan, lastIdx, lastIdxAux,
      List.insertionSort, List.orderedInsert]
  refine ⟨⟨by norm_num, hsel, ?_⟩, ?_⟩
  · exact selectWeightedIndex_last_duplicate.1 [1, 1, 4] (1 / 12) 1 2 (by norm_num) hsel
      (by norm_num) (by norm_num)
  · exact selectWeightedIndex_last_duplicate.2 (1 / 2) (by norm_num) (by norm_num)

/-- C9, counterexample: the claim says `Add` and `LogicalAnd` report a fatal
error whenever an operand is empty (zero rows or columns); but the matrix
`LogicalAnd` has no emptiness check at all and returns a result on two empty
`0 x 0` operands, and `Add` only checks the row count, returning a result on
two `1 x 0` operands. -/
theorem cpu_empty_operands_accepted_cex :
    (cpuLogicalAnd ⟨0, 0, fun _ _ => false⟩ ⟨0, 0, fun _ _ => false⟩).isSome = true ∧
    (cpuAdd ⟨1, 0, fun _ _ => 0⟩ ⟨1, 0, fun _ _ => 0⟩).isSome = true := by
  constructor
  · simp [cpuLogicalAnd]
  · simp [cpuAdd]

/-- C9, amended: matrix `Add` and `LogicalAnd` report a fatal error instead
of producing a result whenever the operands' sizes mismatch; `Add`
additionally fails when the operands' row count is zero; but `LogicalAnd`
performs no emptiness check (matched-size operands always produce a result),
and `Add` accepts matched-size zero-column operands with positive row
count. -/
theorem cpu_add_logicalAnd_size_checks :
    (∀ a b : NMatrix ℚ, a.rows ≠ b.rows ∨ a.cols ≠ b.cols → cpuAdd a b = none) ∧
    (∀ a b : NMatrix Bool, a.rows ≠ b.rows ∨ a.cols ≠ b.cols → cpuLogicalAnd a b = none) ∧
    (∀ a b : NMatrix ℚ, a.rows = 0 → cpuAdd a b = none) ∧
    (∀ a b : NMatrix Bool, a.rows = b.rows → a.cols = b.cols →
      (cpuLogicalAnd a b).isSome = true) ∧
    (∀ a b : NMatrix ℚ, a.rows = b.rows → a.cols = b.cols → 0 < a.rows →
      (cpuAdd a b).isSome = true) := by
  refine ⟨?_, ?_, ?_, ?_, ?_⟩
  · intro a b h
    rw [cpuAdd, if_pos h]
  · intro a b h
    rw [cpuLogicalAnd, if_pos h]
  · intro a b h
    rw [cpuAdd]
    by_cases h1 : a.rows ≠ b.rows ∨ a.cols ≠ b.cols
    · rw [if_pos h1]
    · rw [if_neg h1, if_pos h]
  · intro a b h1 h2
    rw [cpuLogicalAnd, if_neg (by simp [h1, h2])]
    rfl
  · intro a b h1 h2 h3
    rw [cpuAdd, if_neg (by simp [h1, h2]), if_neg (by omega)]
    rfl

/-- C9, witness: each branch of the amended theorem at concrete matrices. -/
theorem cpu_add_logicalAnd_size_checks_witness :
    cpuAdd ⟨1, 2, fun _ _ => 0⟩ ⟨1, 3, fun _ _ => 0⟩ = none ∧
    cpuLogicalAnd ⟨1, 2, fun _ _ => false⟩ ⟨2, 2, fun _ _ => false⟩ = none ∧
    cpuAdd ⟨0, 2, fun _ _ => 0⟩ ⟨0, 2, fun _ _ => 0⟩ = none ∧
    (cpuLogicalAnd ⟨0, 0, fun _ _ => true⟩ ⟨0, 0, fun _ _ => true⟩).isSome = true ∧
    (cpuAdd ⟨2, 0, fun _ _ => 1⟩ ⟨2, 0, fun _ _ => 1⟩).isSome = true :=
  ⟨cpu_add_logicalAnd_size_checks.1 _ _ (by norm_num),
    cpu_add_logicalAnd_size_checks.2.1 _ _ (by norm_num),
    cpu_add_logicalAnd_size_checks.2.2.1 _ _ rfl,
    cpu_add_logicalAnd_size_checks.2.2.2.1 _ _ rfl rfl,
    cpu_add_logicalAnd_size_checks.2.2.2.2 _ _ rfl rfl (by norm_num)⟩

/-- C2 (evidence of the code bug): with the fixed seed (`Random = false`),
KMEANSPP initialization, the fixed post-seed `drand48` stream (constant
`1/2`), and a `rand()` stream whose first two values are glibc's first two
outputs after default seeding (`1804289383`, then `846930886` — odd then
even), two successive `Fit` calls on the identical one-feature dataset with
samples `0` and `10` and `K = 2` produce *different* label vectors: `srand48`
reseeds `drand48` but never `rand()`, whose position advances from the first
call into the second, flipping the first k-means++ center. -/
theorem fit_kmeanspp_successive_calls_differ :
    Fit [[0], [10]] 2 [] .KMEANSPP (fun _ => 1 / 2)
        (fun n => if n = 0 then 1804289383 else 846930886) 0 5
      = .done [1, 0] [[10], [0]] 1 ∧
    Fit [[0], [10]] 2 [] .KMEANSPP (fun _ => 1 / 2)
        (fun n => if n = 0 then 1804289383 else 846930886) 1 5
      = .done [0, 1] [[0], [10]] 2 ∧
    ([1, 0] : List ℕ) ≠ [0, 1] := by
  refine ⟨?_, ?_, by decide⟩ <;>
    norm_num [Fit, Cluster, KMeansPPInit, ppAux, SelectWeightedIndex, normalizeW, swiScan,
      lastIdx, lastIdxAux, lloyd, AssignLabels, FindClosestCluster, argminFirst, argminAux,
      sqDist, sqNorm, vsub, EstimateNewCenters, GetIndicesWithLabel, gwlAux, CheckChanged,
      meanCols, vsum, vadd, List.insertionSort, List.orderedInsert, List.getD, List.zip,
      List.zipWith, List.range_succ, List.replicate]

/-- C3: in `EstimateNewCenters`, for a cluster `c < K` with no sample
labelled `c` the output column `c` equals the input (pre-update) column `c`,
and for a cluster with members the output column is, featurewise, the
arithmetic mean of its member samples (sum of the members' entries divided by
the member count). -/
theorem estimateNewCenters_empty_preserved_nonempty_mean
    (data : List (List ℚ)) (labels : List ℕ) (centers : List (List ℚ))
    (K c rows : ℕ) (hc : c < K) (hlen : labels.length ≤ data.length)
    (hdata : ∀ p ∈ data, p.length = rows) :
    ((∀ i < labels.length, labels.getD i 0 ≠ c) →
      (EstimateNewCenters data labels centers K).getD c [] = centers.getD c []) ∧
    (GetIndicesWithLabel labels c ≠ [] → ∀ f < rows,
      ((EstimateNewCenters data labels centers K).getD c []).getD f 0 =
        ((GetIndicesWithLabel labels c).map (fun i => (data.getD i []).getD f 0)).sum /
          ((GetIndicesWithLabel labels c).length : ℚ)) := by
  have hE : (EstimateNewCenters data labels centers K).getD c [] =
      (if ((GetIndicesWithLabel labels c).map (fun i => data.getD i [])).length = 0
        then centers.getD c []
        else meanCols ((GetIndicesWithLabel labels c).map (fun i => data.getD i []))) := by
    rw [EstimateNewCenters, getD_range_map _ _ _ _ hc]
  constructor
  · intro hno
    have hnil : GetIndicesWithLabel labels c = [] :=
      (getIndicesWithLabel_eq_nil labels c).mpr hno
    rw [hE, hnil]
    simp
  · intro hne f hf
    have hlen0 : ¬ ((GetIndicesWithLabel labels c).map (fun i => data.getD i [])).length = 0 := by
      simp only [List.length_map, List.length_eq_zero]
      exact hne
    rw [hE, if_neg hlen0]
    have hallrows : ∀ q ∈ (GetIndicesWithLabel labels c).map (fun i => data.getD i []),
        q.length = rows := by
      intro q hq
      rcases List.mem_map.mp hq with ⟨i, hi, rfl⟩
      rcases (getIndicesWithLabel_mem labels c i).mp hi with ⟨hil, _⟩
      exact hdata _ (getD_mem_of_lt data i [] (by omega))
    rw [meanCols_getD _ rows (by simpa using hne) hallrows f hf]
    rw [List.map_map, List.length_map]
    rfl

/-- C3, witness: dataset with samples `[0]` and `[2]`, both labelled `0`,
centers `[[5], [7]]`, `K = 2`: cluster `1` is empty and keeps center `[7]`
(first part at `c = 1`), and cluster `0` gets the mean `(0 + 2) / 2 = 1`
(second part at `c = 0`). -/
theorem estimateNewCenters_empty_preserved_nonempty_mean_witness :
    ((∀ i < ([0, 0] : List ℕ).length, ([0, 0] : List ℕ).getD i 0 ≠ 1) →
      (EstimateNewCenters [[0], [2]] [0, 0] [[5], [7]] 2).getD 1 [] = [[5], [7]].getD 1 []) ∧
    (GetIndicesWithLabel [0, 0] 0 ≠ [] → ∀ f < 1,
      ((EstimateNewCenters [[0], [2]] [0, 0] [[5], [7]] 2).getD 0 []).getD f 0 =
        ((GetIndicesWithLabel [0, 0] 0).map
            (fun i => (([[0], [2]] : List (List ℚ)).getD i []).getD f 0)).sum /
          ((GetIndicesWithLabel [0, 0] 0).length : ℚ)) :=
  ⟨(estimateNewCenters_empty_preserved_nonempty_mean [[0], [2]] [0, 0] [[5], [7]] 2 1 1
      (by norm_num) (by norm_num) (by intro p hp; fin_cases hp <;> rfl)).1,
    (estimateNewCenters_empty_preserved_nonempty_mean [[0], [2]] [0, 0] [[5], [7]] 2 0 1
      (by norm_num) (by norm_num) (by intro p hp; fin_cases hp <;> rfl)).2⟩

/-- C4 (evidence of the code bug): the claim says an empty cluster
contributes exactly zero to the MLE variance, but the source divides the
empty cluster's zero sum by its zero member count (`variance /= size`), a
`0.0 / 0` producing NaN which poisons the whole sum: on a 2-sample dataset
with both samples labelled `0` and `K = 2`, cluster `1` is empty and the
result is NaN (`none`), not the per-cluster mean distance of cluster `0`. -/
theorem computeMLEVariance_nan_on_empty_cluster :
    ComputeMLEVariance [[0], [1]] [[0], [9]] [0, 0] 2 = none := by
  simp [ComputeMLEVariance, GetIndicesWithLabel, gwlAux, oadd, odiv, List.range_succ]

/-- C7: every sample is labelled with a centroid index in `[0, K)` whose
non-squared Euclidean distance to the sample is minimal among all `K`
current centroids, and strictly below the distance of every centroid with a
smaller index (first-index tie-break: the lowest index attaining the minimum
wins). -/
theorem assignLabels_nearest_center (data centers : List (List ℚ)) (K p : ℕ)
    (hK : 0 < K) (hp : p < data.length) :
    (AssignLabels data centers K).getD p 0 < K ∧
    (∀ m < K,
      euclidDist (centers.getD ((AssignLabels data centers K).getD p 0) []) (data.getD p []) ≤
        euclidDist (centers.getD m []) (data.getD p [])) ∧
    (∀ m < (AssignLabels data centers K).getD p 0,
      euclidDist (centers.getD ((AssignLabels data centers K).getD p 0) []) (data.getD p []) <
        euclidDist (centers.getD m []) (data.getD p [])) := by
  have hAL : (AssignLabels data centers K).getD p 0 =
      FindClosestCluster centers K (data.getD p []) := by
    rw [AssignLabels, List.getD_eq_getElem?_getD, List.getElem?_map,
      List.getElem?_eq_getElem hp, List.getD_eq_getElem?_getD, List.getElem?_eq_getElem hp]
    rfl
  obtain ⟨h1, h2, h3⟩ := findClosestCluster_spec centers K (data.getD p []) hK
  rw [hAL]
  exact ⟨h1, fun m hm => euclidDist_le_of_sqDist_le (h2 m hm),
    fun m hm => euclidDist_lt_of_sqDist_lt (h3 m hm)⟩

/-- C7, witness: dataset `[[0], [3]]`, centers `[[0], [3]]`, `K = 2`, sample
`0`. -/
theorem assignLabels_nearest_center_witness :
    0 < 2 ∧ 0 < ([[0], [3]] : List (List ℚ)).length ∧
    ((AssignLabels [[0], [3]] [[0], [3]] 2).getD 0 0 < 2 ∧
    (∀ m < 2,
      euclidDist ([[0], [3]].getD ((AssignLabels [[0], [3]] [[0], [3]] 2).getD 0 0) [])
          (([[0], [3]] : List (List ℚ)).getD 0 []) ≤
        euclidDist ([[0], [3]].getD m []) (([[0], [3]] : List (List ℚ)).getD 0 [])) ∧
    (∀ m < (AssignLabels [[0], [3]] [[0], [3]] 2).getD 0 0,
      euclidDist ([[0], [3]].getD ((AssignLabels [[0], [3]] [[0], [3]] 2).getD 0 0) [])
          (([[0], [3]] : List (List ℚ)).getD 0 []) <
        euclidDist ([[0], [3]].getD m []) (([[0], [3]] : List (List ℚ)).getD 0 []))) :=
  ⟨by norm_num, by norm_num,
    assignLabels_nearest_center [[0], [3]] [[0], [3]] 2 0 (by norm_num) (by norm_num)⟩

/-- C8, counterexample: the claim's validity condition is only "K at most the
sample count and a reachable initialization method", which admits `K = 0`;
with RANDOM initialization and `K = 0` on a 2-sample dataset, `Fit` completes
(the first assignment pass labels everything `0` because the scan over zero
centers never moves `closestCluster` off its initialization, which equals the
all-zero old labels, so the loop stops), yet the returned label `0` does not
lie in the empty range `[0, 0)`. -/
theorem fit_label_range_cex_k_zero :
    Fit [[0], [10]] 0 [] .RANDOM (fun _ => 1 / 2) (fun _ => 0) 0 5 = .done [0, 0] [] 0 ∧
    0 ∈ ([0, 0] : List ℕ) ∧ ¬ (0 : ℕ) < 0 := by
  refine ⟨?_, by decide, by decide⟩
  norm_num [Fit, Cluster, RandomInit, lloyd, AssignLabels, FindClosestCluster, argminFirst,
    argminAux, EstimateNewCenters, CheckChanged, List.zip, List.zipWith, List.replicate,
    List.range_succ]

/-- C8, amended: with the additional requirement `K ≥ 1`, every assignment
step produces a label vector whose length equals the sample count with every
entry in `[0, K)`, and consequently whenever `Fit` completes (for any
initialization method, streams, and fuel), the returned labels satisfy the
same bounds. -/
theorem fit_labels_in_range :
    (∀ (data centers : List (List ℚ)) (k : ℕ), 0 < k →
      (AssignLabels data centers k).length = data.length ∧
      ∀ l ∈ AssignLabels data centers k, l < k) ∧
    (∀ (data : List (List ℚ)) (k : ℕ) (centers0 : List (List ℚ)) (method : InitMethod)
      (dstream : ℕ → ℚ) (rstream : ℕ → ℕ) (rpos fuel : ℕ) (labels : List ℕ)
      (cs : List (List ℚ)) (rp2 : ℕ), 0 < k →
      Fit data k centers0 method dstream rstream rpos fuel = .done labels cs rp2 →
      labels.length = data.length ∧ ∀ l ∈ labels, l < k) := by
  constructor
  · intro data centers k hk
    exact ⟨assignLabels_length data centers k, assignLabels_mem_lt data centers k hk⟩
  · intro data k centers0 method dstream rstream rpos fuel labels cs rp2 hk h
    obtain ⟨c, rfl⟩ := fit_done_labels data k centers0 method dstream rstream rpos fuel
      labels cs rp2 h
    exact ⟨assignLabels_length data c k, assignLabels_mem_lt data c k hk⟩

/-- C8, witness: a completed MANUAL run with `K = 1` on a single sample. -/
theorem fit_labels_in_range_witness :
    0 < 1 ∧
    Fit [[0]] 1 [[0]] .MANUAL (fun _ => 0) (fun _ => 0) 0 2 = .done [0] [[0]] 0 ∧
    (([0] : List ℕ).length = ([[0]] : List (List ℚ)).length ∧ ∀ l ∈ ([0] : List ℕ), l < 1) := by
  have hfit : Fit [[0]] 1 [[0]] .MANUAL (fun _ => 0) (fun _ => 0) 0 2 = .done [0] [[0]] 0 := by
    norm_num [Fit, Cluster, lloyd, AssignLabels, FindClosestCluster, argminFirst, argminAux,
      sqDist, sqNorm, vsub, EstimateNewCenters, GetIndicesWithLabel, gwlAux, CheckChanged,
      meanCols, vsum, vadd, List.zip, List.zipWith, List.replicate, List.range_succ]
  exact ⟨by norm_num, hfit,
    fit_labels_in_range.2 [[0]] 1 [[0]] .MANUAL (fun _ => 0) (fun _ => 0) 0 2 [0] [[0]] 0
      (by norm_num) hfit⟩

end Nice
